import Mathlib

/-!
Verification of the incremental Datalog compilation core (IncrementalTransformer.cpp,
AstTranslator.cpp) against its natural-language specification.

The development shallowly embeds the AST fragment manipulated by the incremental
transformer and the RAM (IR) fragment emitted by the translator, translates the
relevant source functions into executable Lean definitions, and proves or refutes
the specification claims about them.
-/

namespace Souffle

/-- Intrinsic functor operations used by the incremental transformer
(FunctorOps.h side of the embedding; only the operations reachable from the
embedded code paths are included). -/
inductive FunctorOp
  | maxF
  | minF
  | subF
  | addF
  deriving DecidableEq

/-- Binary constraint operators (BinaryConstraintOps.h). -/
inductive BinaryConstraintOp
  | eq
  | ne
  | lt
  | le
  | gt
  | ge
  deriving DecidableEq

/-- AST argument variants (AstArgument.h), restricted to the argument forms the
embedded code paths inspect or build: variables, unnamed variables, number
constants, the iteration number, and binary intrinsic functors. -/
inductive AstArgument
  | var (name : String)
  | unnamed
  | number (v : Int)
  | iterationNumber
  | intrinsic (op : FunctorOp) (l r : AstArgument)
  deriving DecidableEq

/-- An AST atom: a relation name applied to a list of arguments. -/
structure AstAtom where
  name : String
  args : List AstArgument
  deriving DecidableEq

/-- AST body literal variants (AstLiteral.h) reachable from the embedded paths. -/
inductive AstLiteral
  | atom (a : AstAtom)
  | negation (a : AstAtom)
  | subsumptionNegation (a : AstAtom) (levels : Nat)
  | binaryConstraint (op : BinaryConstraintOp) (l r : AstArgument)
  deriving DecidableEq

/-- An AST clause: a head atom and a list of body literals (AstClause.h). -/
structure AstClause where
  head : AstAtom
  body : List AstLiteral
  deriving DecidableEq

/-- An AST attribute: name and type name (AstAttribute.h). -/
structure AstAttribute where
  attrName : String
  typeName : String
  deriving DecidableEq

/-- An AST relation: name, attributes, clauses, and the number of provenance
height parameters (AstRelation.h). -/
structure AstRelation where
  relName : String
  attributes : List AstAttribute
  clauses : List AstClause
  numberOfHeights : Nat
  deriving DecidableEq

/-- An AST program is its list of relations. -/
structure AstProgram where
  relations : List AstRelation
  deriving DecidableEq

/-- Modelled from the spec: a fact is a clause with an empty body
(AstClause::isFact is declared outside the provided sources; §4.2 distinguishes
facts, which receive constant annotations, from rules, which are expanded). -/
def AstClause.isFact (c : AstClause) : Bool :=
  c.body.isEmpty

/-- The addUnnamedVariables node mapper of IncrementalTransformer.cpp, applied to
one body literal: atoms nested under a negation receive two extra unnamed
variables.  On the embedded argument fragment (which has no atoms nested in
arguments) the mapper leaves atom and constraint literals unchanged.
AstSubsumptionNegation is a subclass of AstNegation and is treated alike. -/
def addUnnamedVariablesLiteral : AstLiteral → AstLiteral
  | .negation a => .negation { a with args := a.args ++ [.unnamed, .unnamed] }
  | .subsumptionNegation a levels =>
      .subsumptionNegation { a with args := a.args ++ [.unnamed, .unnamed] } levels
  | l => l

/-- The applyFunctorToVars helper of IncrementalTransformer.cpp: combines a list
of arguments with a binary functor, left-associated; the empty list gives the
constant 0 and a singleton gives the argument itself. -/
def applyFunctorToVars (levels : List AstArgument) (op : FunctorOp) : AstArgument :=
  match levels with
  | [] => .number 0
  | [l] => l
  | l0 :: l1 :: rest => rest.foldl (fun acc l => .intrinsic op acc l) (.intrinsic op l0 l1)

/-- Per-body-literal instrumentation shared by the three clause rewrites of
IncrementalTransformer.cpp: literal i first has addUnnamedVariables applied and,
if it is an atom, receives the three variables iteration_i, prev_count_i and
current_count_i (the at-sign-prefixed names from the source). -/
def instrumentedBodyLiteral (i : Nat) (lit : AstLiteral) : AstLiteral :=
  match addUnnamedVariablesLiteral lit with
  | .atom a => .atom { a with args := a.args ++
      [.var ("@iteration_" ++ toString i),
       .var ("@prev_count_" ++ toString i),
       .var ("@current_count_" ++ toString i)] }
  | l => l

/-- Instrumentation of a body literal list starting at literal index i
(the loop over getBodyLiterals() in the clause rewrites). -/
def instrumentBodyFrom : Nat → List AstLiteral → List AstLiteral
  | _, [] => []
  | i, lit :: rest => instrumentedBodyLiteral i lit :: instrumentBodyFrom (i + 1) rest

/-- The bodyLevels vector: one variable iteration_i per body atom whose relation
is in the same SCC as the head relation (the sccGraph.getInternalRelations
membership test, abstracted as the predicate sameSCC on atom names). -/
def bodyLevelVarsFrom (sameSCC : String → Bool) : Nat → List AstLiteral → List AstArgument
  | _, [] => []
  | i, .atom a :: rest =>
      if sameSCC a.name then
        .var ("@iteration_" ++ toString i) :: bodyLevelVarsFrom sameSCC (i + 1) rest
      else bodyLevelVarsFrom sameSCC (i + 1) rest
  | i, _ :: rest => bodyLevelVarsFrom sameSCC (i + 1) rest

/-- The bodyPreviousCounts vector: one variable prev_count_i per body atom. -/
def prevCountVarsFrom : Nat → List AstLiteral → List AstArgument
  | _, [] => []
  | i, .atom _ :: rest => .var ("@prev_count_" ++ toString i) :: prevCountVarsFrom (i + 1) rest
  | i, _ :: rest => prevCountVarsFrom (i + 1) rest

/-- The bodyCounts vector: one variable current_count_i per body atom. -/
def currentCountVarsFrom : Nat → List AstLiteral → List AstArgument
  | _, [] => []
  | i, .atom _ :: rest => .var ("@current_count_" ++ toString i) :: currentCountVarsFrom (i + 1) rest
  | i, _ :: rest => currentCountVarsFrom (i + 1) rest

/-- IncrementalTransformer::makePositiveUpdateClause.  The clause is cloned, every
body atom is instrumented, the head receives the iteration argument
(IterationNumber for recursive clauses, the constant 0 otherwise) and the count
constants (0, 1), and the body gains, in source order: min of all current counts
greater than 0; if any body atom shares the head's SCC, max of those iteration
variables equal to IterationNumber - 1; and min of all previous counts at most 0.
A singleton vector of clauses is returned. -/
def makePositiveUpdateClause (isRecursive : Bool) (sameSCC : String → Bool)
    (clause : AstClause) : List AstClause :=
  let instrumented := instrumentBodyFrom 0 clause.body
  let bodyLevels := bodyLevelVarsFrom sameSCC 0 clause.body
  let bodyPreviousCounts := prevCountVarsFrom 0 clause.body
  let bodyCounts := currentCountVarsFrom 0 clause.body
  let headArgs := clause.head.args ++
    [(if isRecursive then AstArgument.iterationNumber else AstArgument.number 0),
     AstArgument.number 0, AstArgument.number 1]
  let withCountConstraint := instrumented ++
    [AstLiteral.binaryConstraint .gt (applyFunctorToVars bodyCounts .minF) (.number 0)]
  let withIterConstraint :=
    if bodyLevels.length > 0 then
      withCountConstraint ++
        [AstLiteral.binaryConstraint .eq (applyFunctorToVars bodyLevels .maxF)
          (.intrinsic .subF .iterationNumber (.number 1))]
    else withCountConstraint
  let finalBody := withIterConstraint ++
    [AstLiteral.binaryConstraint .le (applyFunctorToVars bodyPreviousCounts .minF) (.number 0)]
  [{ head := { clause.head with args := headArgs }, body := finalBody }]

/-- IncrementalTransformer::makeNegativeUpdateClause.  Symmetric to the positive
update clause: the head receives the iteration argument and the count constants
(1, -1); the body gains min of previous counts greater than 0, the iteration
constraint when applicable, and min of current counts at most 0. -/
def makeNegativeUpdateClause (isRecursive : Bool) (sameSCC : String → Bool)
    (clause : AstClause) : List AstClause :=
  let instrumented := instrumentBodyFrom 0 clause.body
  let bodyLevels := bodyLevelVarsFrom sameSCC 0 clause.body
  let bodyPreviousCounts := prevCountVarsFrom 0 clause.body
  let bodyCounts := currentCountVarsFrom 0 clause.body
  let headArgs := clause.head.args ++
    [(if isRecursive then AstArgument.iterationNumber else AstArgument.number 0),
     AstArgument.number 1, AstArgument.number (-1)]
  let withPrevConstraint := instrumented ++
    [AstLiteral.binaryConstraint .gt (applyFunctorToVars bodyPreviousCounts .minF) (.number 0)]
  let withIterConstraint :=
    if bodyLevels.length > 0 then
      withPrevConstraint ++
        [AstLiteral.binaryConstraint .eq (applyFunctorToVars bodyLevels .maxF)
          (.intrinsic .subF .iterationNumber (.number 1))]
    else withPrevConstraint
  let finalBody := withIterConstraint ++
    [AstLiteral.binaryConstraint .le (applyFunctorToVars bodyCounts .minF) (.number 0)]
  [{ head := { clause.head with args := headArgs }, body := finalBody }]

/-- IncrementalTransformer::makePositiveGenerationClause.  The head receives the
iteration argument and the count constants (1, 1); the body gains min of current
counts greater than 0 and the iteration constraint when applicable. -/
def makePositiveGenerationClause (isRecursive : Bool) (sameSCC : String → Bool)
    (clause : AstClause) : AstClause :=
  let instrumented := instrumentBodyFrom 0 clause.body
  let bodyLevels := bodyLevelVarsFrom sameSCC 0 clause.body
  let bodyCounts := currentCountVarsFrom 0 clause.body
  let headArgs := clause.head.args ++
    [(if isRecursive then AstArgument.iterationNumber else AstArgument.number 0),
     AstArgument.number 1, AstArgument.number 1]
  let withCountConstraint := instrumented ++
    [AstLiteral.binaryConstraint .gt (applyFunctorToVars bodyCounts .minF) (.number 0)]
  let finalBody :=
    if bodyLevels.length > 0 then
      withCountConstraint ++
        [AstLiteral.binaryConstraint .eq (applyFunctorToVars bodyLevels .maxF)
          (.intrinsic .subF .iterationNumber (.number 1))]
    else withCountConstraint
  { head := { clause.head with args := headArgs }, body := finalBody }

/-- Result of processing one clause in IncrementalTransformer::transform:
the clauses kept in the clause's relation and the update clauses appended to the
program. -/
structure ClauseTransformResult where
  keptClauses : List AstClause
  appendedClauses : List AstClause
  deriving DecidableEq

/-- The per-clause dispatch of IncrementalTransformer::transform: a fact keeps
its place and its head is annotated with the constant triple (0, 0, 1); any
other clause is replaced by its generation clause in the relation while its
negative and positive update clauses are appended to the program. -/
def transformClause (isRecursive : Bool) (sameSCC : String → Bool)
    (c : AstClause) : ClauseTransformResult :=
  if c.isFact then
    { keptClauses := [{ c with head := { c.head with args :=
        c.head.args ++ [.number 0, .number 0, .number 1] } }]
      appendedClauses := [] }
  else
    { keptClauses := [makePositiveGenerationClause isRecursive sameSCC c]
      appendedClauses := makeNegativeUpdateClause isRecursive sameSCC c ++
        makePositiveUpdateClause isRecursive sameSCC c }

/-- The attribute extension of IncrementalTransformer::transform: every relation
receives the three annotation attributes iteration, prev_count and current_count
(at-sign-prefixed in the source), all of type number, appended in this order. -/
def transformRelationAttributes (r : AstRelation) : AstRelation :=
  { r with attributes := r.attributes ++
      [{ attrName := "@iteration", typeName := "number" },
       { attrName := "@prev_count", typeName := "number" },
       { attrName := "@current_count", typeName := "number" }] }

/-- Clause processing of IncrementalTransformer::transform for one relation:
facts stay in place annotated; non-fact clauses are removed after their
generation clauses are appended to the relation, and their update clauses are
collected for the program. -/
def transformRelationClauses (isRecursive : AstClause → Bool) (sameSCC : String → Bool)
    (r : AstRelation) : AstRelation × List AstClause :=
  let kept := (r.clauses.filter fun c => c.isFact).map fun c =>
      { c with head := { c.head with args := c.head.args ++ [.number 0, .number 0, .number 1] } }
  let generated := (r.clauses.filter fun c => !c.isFact).map fun c =>
      makePositiveGenerationClause (isRecursive c) sameSCC c
  let appended := (r.clauses.filter fun c => !c.isFact).flatMap fun c =>
      makeNegativeUpdateClause (isRecursive c) sameSCC c ++
      makePositiveUpdateClause (isRecursive c) sameSCC c
  ({ transformRelationAttributes r with clauses := kept ++ generated }, appended)

/-- IncrementalTransformer::transform over a whole program: every relation's
attributes are extended and every relation's clauses are rewritten. -/
def transformProgram (isRecursive : AstClause → Bool) (sameSCC : String → Bool)
    (p : AstProgram) : AstProgram :=
  { relations := p.relations.map fun r => (transformRelationClauses isRecursive sameSCC r).1 }

/-! RAM (IR) fragment built by AstTranslator.cpp. -/

/-- A RAM relation schema (RamRelation), as registered by
AstTranslator::createRelationReference. -/
structure RamRelation where
  name : String
  arity : Nat
  numberOfHeights : Nat
  attributeNames : List String
  attributeTypeQualifiers : List String
  deriving DecidableEq

/-- RAM expression variants reachable from the embedded translator paths. -/
inductive RamExpression
  | tupleElement (level col : Nat)
  | number (v : Int)
  | subroutineArgument (i : Nat)
  | iterationNumber
  deriving DecidableEq

/-- RAM condition variants reachable from the embedded translator paths.
A subroutine condition names a subroutine and passes argument expressions. -/
inductive RamCondition
  | emptinessCheck (rel : String)
  | constraint (op : BinaryConstraintOp) (l r : RamExpression)
  | conjunction (l r : RamCondition)
  | subroutineCondition (name : String) (args : List RamExpression)

/-- RAM operation variants reachable from the embedded translator paths. -/
inductive RamOperation
  | scan (rel : String) (level : Nat) (nested : RamOperation)
  | filter (cond : RamCondition) (nested : RamOperation)
  | project (rel : String) (tuple : List RamExpression)
  | subroutineReturnValue (vals : List RamExpression) (returnNow : Bool)

/-- RAM statement variants reachable from the embedded translator paths.
Relations are referred to by their mangled names.  Log timers drop the log
message text (LogStatement is an external collaborator) and keep the timed
relation where the source attaches one. -/
inductive RamStatement
  | sequence (stmts : List RamStatement)
  | merge (target source : String)
  | semiMerge (target source : String)
  | clear (rel : String)
  | load (rel : String)
  | store (rel : String)
  | create (rel : String)
  | drop (rel : String)
  | query (op : RamOperation)
  | loop (body clearPart exitPart updatePart : RamStatement)
  | exitWhen (cond : RamCondition) (exitValue : Bool)
  | logRelationTimer (inner : RamStatement) (rel : String)
  | logTimer (inner : RamStatement)
  | stratum (inner : RamStatement) (index : Nat)

/-- AstTranslator::translateRelation: builds the RAM schema of a relation under
an optional name mark ("" for the base relation, "@delta_" and friends for the
variants), consulting the type environment (abstracted as typeQual) for the
attribute type qualifiers. -/
def translateRelation (typeQual : String → String) (rel : AstRelation)
    (relationNameMark : String) : RamRelation :=
  { name := relationNameMark ++ rel.relName
    arity := rel.attributes.length
    numberOfHeights := rel.numberOfHeights
    attributeNames := rel.attributes.map (fun a => a.attrName)
    attributeTypeQualifiers := rel.attributes.map (fun a => typeQual a.typeName) }

/-- Mangled name of the delta variant (AstTranslator::translateDeltaRelation). -/
def deltaRelationName (rel : AstRelation) : String := "@delta_" ++ rel.relName

/-- Mangled name of the new variant (AstTranslator::translateNewRelation). -/
def newRelationName (rel : AstRelation) : String := "@new_" ++ rel.relName

/-- Mangled name of the diff_minus variant. -/
def diffMinusRelationName (rel : AstRelation) : String := "diff_minus@_" ++ rel.relName

/-- Mangled name of the diff_plus variant. -/
def diffPlusRelationName (rel : AstRelation) : String := "diff_plus@_" ++ rel.relName

/-- Mangled name of the new_diff_minus variant. -/
def newDiffMinusRelationName (rel : AstRelation) : String := "@new_diff_minus@_" ++ rel.relName

/-- Mangled name of the new_diff_plus variant. -/
def newDiffPlusRelationName (rel : AstRelation) : String := "@new_diff_plus@_" ++ rel.relName

/-- Mangled name of the diff_minus_applied variant. -/
def diffMinusAppliedRelationName (rel : AstRelation) : String :=
  "diff_minus_applied@_" ++ rel.relName

/-- Mangled name of the diff_plus_applied variant. -/
def diffPlusAppliedRelationName (rel : AstRelation) : String :=
  "diff_plus_applied@_" ++ rel.relName

/-- Mangled name of the diff_minus_count variant. -/
def diffMinusCountRelationName (rel : AstRelation) : String :=
  "diff_minus_count@_" ++ rel.relName

/-- Mangled name of the diff_plus_count variant. -/
def diffPlusCountRelationName (rel : AstRelation) : String :=
  "diff_plus_count@_" ++ rel.relName

/-- Mangled name of the diff_applied variant. -/
def diffAppliedRelationName (rel : AstRelation) : String :=
  "diff_applied@_" ++ rel.relName

/-- AstTranslator::makeIncrementalCleanupSubroutine, one relation's block:
merge diff_minus then diff_plus into the base relation; clear the diff and
applied variants; then scan the base relation and project every tuple back with
the original columns except the last two followed by the constants (-1, -1).
The relation arity here is the post-transformation arity. -/
def cleanupForRelation (rel : AstRelation) : List RamStatement :=
  [ .merge rel.relName (diffMinusRelationName rel),
    .merge rel.relName (diffPlusRelationName rel),
    .clear (diffPlusRelationName rel),
    .clear (diffMinusRelationName rel),
    .clear (diffPlusCountRelationName rel),
    .clear (diffMinusCountRelationName rel),
    .clear (diffPlusAppliedRelationName rel),
    .clear (diffMinusAppliedRelationName rel),
    .clear (diffAppliedRelationName rel),
    .query (.scan rel.relName 0
      (.project rel.relName
        (((List.range (rel.attributes.length - 2)).map fun i => RamExpression.tupleElement 0 i) ++
          [.number (-1), .number (-1)]))) ]

/-- AstTranslator::makeIncrementalCleanupSubroutine: the cleanup blocks of all
relations of the program, in program order, appended into one flat statement
sequence (appendStmt keeps a flat RamSequence). -/
def makeIncrementalCleanupSubroutine (rels : List AstRelation) : List RamStatement :=
  rels.flatMap cleanupForRelation

/-- AstTranslator::makeIncrementalExitCondSubroutine: scan the max-iteration
relation; on any tuple whose column 0 is at least the subroutine argument,
return 0 immediately; otherwise fall through to a default return of 1. -/
def makeIncrementalExitCondSubroutine (maxIterRelName : String) : List RamStatement :=
  [ .query (.scan maxIterRelName 0
      (.filter (.constraint .ge (.tupleElement 0 0) (.subroutineArgument 0))
        (.subroutineReturnValue [.number 0] true))),
    .query (.subroutineReturnValue [.number 1] false) ]

/-- The addCondition helper of AstTranslator::translateRecursiveRelation:
conjoin a new condition onto an accumulator that starts out absent. -/
def addCondition (cond : Option RamCondition) (clause : RamCondition) : Option RamCondition :=
  match cond with
  | some c => some (.conjunction c clause)
  | none => some clause

/-- The exit-condition construction of AstTranslator::translateRecursiveRelation:
for each SCC member, emptiness of new_diff_plus and new_diff_minus under
incremental mode (emptiness of the new variant otherwise); under incremental
mode the subroutine condition scc_i_exit(IterationNumber) is conjoined last. -/
def makeSccExitCondition (incremental : Bool) (sccRels : List AstRelation)
    (indexOfScc : Nat) : Option RamCondition :=
  let base := sccRels.foldl
    (fun acc rel =>
      if incremental then
        addCondition (addCondition acc (.emptinessCheck (newDiffPlusRelationName rel)))
          (.emptinessCheck (newDiffMinusRelationName rel))
      else addCondition acc (.emptinessCheck (newRelationName rel)))
    none
  if incremental then
    addCondition base
      (.subroutineCondition ("scc_" ++ toString indexOfScc ++ "_exit") [.iterationNumber])
  else base

/-- The makeRamLoad helper of AstTranslator::translateProgram: the Load targets
the diff_plus variant under incremental mode and the base relation otherwise;
under profiling the load is wrapped in a relation log timer on the base
relation. -/
def makeRamLoad (incremental profile : Bool) (rel : AstRelation) : RamStatement :=
  let statement :=
    if incremental then RamStatement.load (diffPlusRelationName rel)
    else RamStatement.load rel.relName
  if profile then .logRelationTimer statement rel.relName else statement

/-- The main-statement assembly of AstTranslator::translateProgram: the RAM
program is created with an empty sequence as its main statement; when the SCC
graph has zero SCCs the function returns before building strata, so the main
statement stays that empty sequence; otherwise the strata sequence is built and,
under profiling, wrapped in a single log timer before being installed. -/
def translateProgramMain (numSCCs : Nat) (profile : Bool)
    (strata : List RamStatement) : RamStatement :=
  if numSCCs = 0 then .sequence []
  else
    let res := RamStatement.sequence strata
    if profile then .logTimer res else res

/-! Evaluation of the emitted RAM fragment.  The RAM evaluator itself is a
downstream collaborator outside the provided sources; the small-step meanings
below follow the specification's description of the IR nodes (§3) and the
in-source pseudocode comments. -/

/-- Modelled from the spec: comparison semantics of the binary constraint
operators on numbers. -/
def evalConstraintOp (op : BinaryConstraintOp) (l r : Int) : Bool :=
  match op with
  | .eq => l = r
  | .ne => l ≠ r
  | .lt => l < r
  | .le => l ≤ r
  | .gt => r < l
  | .ge => r ≤ l

/-- Modelled from the spec: evaluation of a RAM expression against the tuple
bound by the (single) enclosing scan and the subroutine arguments.  Tuple
elements read the scan tuple, numbers are constants, subroutine arguments read
the argument vector; the iteration number is not available inside a
subroutine. -/
def evalExprAt (t : List Int) (args : List Int) : RamExpression → Option Int
  | .tupleElement _ c => t.get? c
  | .number v => some v
  | .subroutineArgument i => args.get? i
  | .iterationNumber => none

/-- Modelled from the spec: evaluation of a constraint condition against the
scan tuple and subroutine arguments (the only condition form appearing inside
the embedded subroutine bodies). -/
def evalCondAt (t : List Int) (args : List Int) : RamCondition → Option Bool
  | .constraint op l r =>
      match evalExprAt t args l, evalExprAt t args r with
      | some a, some b => some (evalConstraintOp op a b)
      | _, _ => none
  | _ => none

/-- Modelled from the spec: the return values produced by a RAM operation for
one bound tuple, each paired with its return-now flag, in evaluation order. -/
def opReturnsAt (t : List Int) (args : List Int) :
    RamOperation → List (List (Option Int) × Bool)
  | .filter cond nested =>
      if evalCondAt t args cond = some true then opReturnsAt t args nested else []
  | .subroutineReturnValue vals now => [(vals.map (evalExprAt t args), now)]
  | _ => []

/-- Modelled from the spec: the return values produced by a top-level RAM
operation; a scan binds each tuple of its relation in order. -/
def opReturnsTop (contents : String → List (List Int)) (args : List Int) :
    RamOperation → List (List (Option Int) × Bool)
  | .scan r _ nested => (contents r).flatMap fun t => opReturnsAt t args nested
  | op => opReturnsAt [] args op

/-- Modelled from the spec: collect returned values up to and including the
first return-now, reporting whether execution stopped there. -/
def takeUntilNow : List (List (Option Int) × Bool) → List (List (Option Int)) × Bool
  | [] => ([], false)
  | (v, true) :: _ => ([v], true)
  | (v, false) :: rest =>
      let r := takeUntilNow rest
      (v :: r.1, r.2)

/-- Modelled from the spec: run the statements of a subroutine in order,
collecting returned value rows; a return-now aborts the remaining statements. -/
def collectReturns (contents : String → List (List Int)) (args : List Int) :
    List RamStatement → List (List (Option Int))
  | [] => []
  | .query op :: rest =>
      let r := takeUntilNow (opReturnsTop contents args op)
      if r.2 then r.1 else r.1 ++ collectReturns contents args rest
  | _ :: rest => collectReturns contents args rest

/-- Modelled from the spec: the scalar result of a subroutine that returns a
single value row with a single column. -/
def subroutineResult (contents : String → List (List Int)) (args : List Int)
    (stmts : List RamStatement) : Option Int :=
  match collectReturns contents args stmts with
  | (some v :: _) :: _ => some v
  | _ => none

/-- Modelled from the spec: truth of an exit condition, given which relations
are currently empty and the truth value of each named subroutine condition. -/
def evalRamCondition (isEmpty : String → Bool) (sub : String → Bool) :
    RamCondition → Bool
  | .emptinessCheck r => isEmpty r
  | .conjunction l r => evalRamCondition isEmpty sub l && evalRamCondition isEmpty sub r
  | .subroutineCondition name _ => sub name
  | .constraint _ _ _ => false

/-! The incremental-rule classification of AstTranslator::translateNonRecursiveRelation
and AstTranslator::translateRecursiveRelation. -/

/-- The dynamic_cast to AstNumberConstant performed on the head count
arguments. -/
def asNumberConstant : AstArgument → Option Int
  | .number v => some v
  | _ => none

/-- Outcome of reading the head's count annotations: either the pair is read and
the rule is classified, or at least one of the two arguments is not a number
constant, in which case the source prints its diagnostic to stderr and then
dereferences the null result of the failed cast (undefined behavior; modelled as
a fault).  Neither branch skips the rule. -/
inductive IncrementalRuleClassification
  | fault
  | classified (isReinsertionRule isInsertionRule isDeletionRule : Bool)
  deriving DecidableEq

/-- The head-count classification of an incremental rule: read the arguments at
positions arity - 2 and arity - 1 of the head, cast them to number constants,
and derive the reinsertion / insertion / deletion flags; the Boolean records
whether the missing-annotation diagnostic is printed. -/
def classifyIncrementalRule (relArity : Nat) (c : AstClause) :
    Bool × IncrementalRuleClassification :=
  let prevCount := c.head.args.get? (relArity - 2)
  let curCount := c.head.args.get? (relArity - 1)
  match prevCount.bind asNumberConstant, curCount.bind asNumberConstant with
  | some p, some q =>
      let isReinsertionRule := p = 1 ∧ q = 1
      (false, .classified (decide isReinsertionRule)
        (decide (q = 1 ∧ ¬isReinsertionRule)) (decide (q = -1)))
  | _, _ => (true, .fault)

/-! The wildcard renaming of AstTranslator::nameUnnamedVariables and the
delta-version construction for recursive clauses. -/

/-- One step of the Instantiator node mapper: rename unnamed variables to
" _unnamed_var<n>" (with the source's leading space), threading the counter
through the post-order traversal of an argument. -/
def nameArgument : Nat → AstArgument → Nat × AstArgument
  | n, .unnamed => (n + 1, .var (" _unnamed_var" ++ toString (n + 1)))
  | n, .intrinsic op l r =>
      ((nameArgument (nameArgument n l).1 r).1,
       .intrinsic op (nameArgument n l).2 (nameArgument (nameArgument n l).1 r).2)
  | n, a => (n, a)

/-- The Instantiator applied to an argument list in order. -/
def nameArgs : Nat → List AstArgument → Nat × List AstArgument
  | n, [] => (n, [])
  | n, a :: rest =>
      ((nameArgs (nameArgument n a).1 rest).1,
       (nameArgument n a).2 :: (nameArgs (nameArgument n a).1 rest).2)

/-- The loop of AstTranslator::nameUnnamedVariables: the Instantiator is applied
to every positive body atom in order (getAtoms returns the positive body atoms;
negations, constraints and the head are untouched), sharing one counter. -/
def nameLiterals : Nat → List AstLiteral → Nat × List AstLiteral
  | n, [] => (n, [])
  | n, .atom a :: rest =>
      ((nameLiterals (nameArgs n a.args).1 rest).1,
       .atom { a with args := (nameArgs n a.args).2 } ::
         (nameLiterals (nameArgs n a.args).1 rest).2)
  | n, .negation a :: rest =>
      ((nameLiterals n rest).1, .negation a :: (nameLiterals n rest).2)
  | n, .subsumptionNegation a levels :: rest =>
      ((nameLiterals n rest).1, .subsumptionNegation a levels :: (nameLiterals n rest).2)
  | n, .binaryConstraint op l r :: rest =>
      ((nameLiterals n rest).1, .binaryConstraint op l r :: (nameLiterals n rest).2)

/-- AstTranslator::nameUnnamedVariables on a clause. -/
def nameUnnamedVariables (c : AstClause) : AstClause :=
  { c with body := (nameLiterals 0 c.body).2 }

/-- View of a body literal as a positive atom. -/
def atomOfLiteral : AstLiteral → Option AstAtom
  | .atom a => some a
  | _ => none

/-- The positive atoms of a body literal list. -/
def bodyAtoms (l : List AstLiteral) : List AstAtom :=
  l.filterMap atomOfLiteral

/-- The positive body atoms of a clause (AstClause::getAtoms). -/
def clauseAtoms (c : AstClause) : List AstAtom :=
  bodyAtoms c.body

/-- Rename the j-th positive body atom of a literal list (setName on
getAtoms()[j]). -/
def mapAtomAt : Nat → List AstLiteral → (AstAtom → AstAtom) → List AstLiteral
  | _, [], _ => []
  | 0, .atom a :: rest, f => .atom (f a) :: rest
  | j + 1, .atom a :: rest, f => .atom a :: mapAtomAt j rest f
  | j, .negation a :: rest, f => .negation a :: mapAtomAt j rest f
  | j, .subsumptionNegation a levels :: rest, f =>
      .subsumptionNegation a levels :: mapAtomAt j rest f
  | j, .binaryConstraint op l r :: rest, f =>
      .binaryConstraint op l r :: mapAtomAt j rest f

/-- The trailing-delta negations of AstTranslator::translateRecursiveRelation:
for every positive body atom k after the pivot j whose relation is in the same
SCC, a negation of that atom renamed to its delta variant, in atom order. -/
def deltaNegationsFrom (sameSCC : String → Bool) (j : Nat) :
    Nat → List AstAtom → List AstLiteral
  | _, [] => []
  | k, a :: rest =>
      if j < k ∧ sameSCC a.name then
        .negation { a with name := "@delta_" ++ a.name } ::
          deltaNegationsFrom sameSCC j (k + 1) rest
      else deltaNegationsFrom sameSCC j (k + 1) rest

/-- The common tail of the delta-version construction: rename wildcards and
append the trailing delta-variant negations for the same-SCC atoms after the
pivot. -/
def deltaVersionTail (sameSCC : String → Bool) (j : Nat) (r3 : AstClause) : AstClause :=
  let r4 := nameUnnamedVariables r3
  { r4 with body := r4.body ++ deltaNegationsFrom sameSCC j 0 (clauseAtoms r4) }

/-- The delta-version construction of AstTranslator::translateRecursiveRelation
(the non-incremental branch, which also runs when provenance is on): clone the
clause, send the head to the new variant, switch pivot atom j to the delta
variant when incremental mode is off, add the head negation (a subsumption
negation under provenance, a plain negation when the head has positive arity
otherwise), rename wildcards, and append a delta-variant negation for every
same-SCC atom after the pivot. -/
def makeDeltaVersion (incremental provenance : Bool) (sameSCC : String → Bool)
    (rel : AstRelation) (cl : AstClause) (j : Nat) : AstClause :=
  let r1 : AstClause := { cl with head := { cl.head with name := newRelationName rel } }
  let r2 : AstClause :=
    if incremental then r1
    else { r1 with body := mapAtomAt j r1.body fun a => { a with name := "@delta_" ++ a.name } }
  let r3 : AstClause :=
    if provenance then
      { r2 with body := r2.body ++ [.subsumptionNegation cl.head (1 + rel.numberOfHeights)] }
    else if 0 < cl.head.args.length then
      { r2 with body := r2.body ++ [.negation cl.head] }
    else r2
  deltaVersionTail sameSCC j r3

/-! A driver slice for the determinism claim.  AstTranslator::translateUnit
drives translateProgram over the translation unit; its only mutation of
anything that outlives one call is the in-place renaming of unnamed variables
performed on each clause before the clause is translated (both incremental
translation paths call nameUnnamedVariables on the program's clause), and the
RAM program and its relation table are rebuilt from scratch on every call.
The model therefore returns both the built IR and the mutated AST; the IR
slice assembles the statement families embedded above and records the clauses
as they stand at translation time (they appear in the emitted DebugInfo
annotations and drive the clause translation). -/

/-- Configuration switches consulted by the embedded paths
(Global::config()). -/
structure Config where
  incremental : Bool
  profile : Bool
  provenance : Bool
  deriving DecidableEq

/-- The AST mutation performed by one translation run: under incremental mode
every clause has its unnamed variables named in place before it is translated;
without incremental mode only clones are renamed and the unit is untouched. -/
def mutateProgramForTranslation (cfg : Config) (p : AstProgram) : AstProgram :=
  if cfg.incremental then
    { relations := p.relations.map fun r =>
        { r with clauses := r.clauses.map nameUnnamedVariables } }
  else p

/-- The IR built by one run of the driver slice: the main statement, the named
subroutine table, the relation table entries for the program's base relations,
and the clauses as translated (as attached to DebugInfo annotations). -/
structure RamProgramModel where
  main : RamStatement
  subroutines : List (String × List RamStatement)
  relationTable : List RamRelation
  debugClauses : List AstClause

/-- The driver slice of AstTranslator::translateProgram: per-relation create and
load statements assembled into strata forming the main statement, the
incremental cleanup subroutine, the base-relation table, and the translated
clauses. -/
def translateProgramModel (cfg : Config) (typeQual : String → String)
    (numSCCs : Nat) (p : AstProgram) : RamProgramModel :=
  let strata := p.relations.map fun r =>
    RamStatement.stratum
      (RamStatement.sequence
        [RamStatement.create r.relName, makeRamLoad cfg.incremental cfg.profile r]) 0
  { main := translateProgramMain numSCCs cfg.profile strata
    subroutines :=
      if cfg.incremental then
        [("incremental_cleanup", makeIncrementalCleanupSubroutine p.relations)]
      else []
    relationTable := p.relations.map fun r => translateRelation typeQual r ""
    debugClauses := p.relations.flatMap fun r => r.clauses }

/-- One run of AstTranslator::translateUnit on a translation unit: the clauses
are renamed in place as translation reaches them (each clause is renamed before
being translated, and one clause's renaming does not affect another clause), so
the run is the translation of the mutated program paired with the mutated
program that the next run will see. -/
def translateUnitModel (cfg : Config) (typeQual : String → String)
    (numSCCs : Nat) (p : AstProgram) : RamProgramModel × AstProgram :=
  (translateProgramModel cfg typeQual numSCCs (mutateProgramForTranslation cfg p),
   mutateProgramForTranslation cfg p)

/-! Helper lemmas. -/

theorem instrumentBodyFrom_length (l : List AstLiteral) :
    ∀ s, (instrumentBodyFrom s l).length = l.length := by
  induction l with
  | nil => intro s; rfl
  | cons lit rest ih => intro s; simp [instrumentBodyFrom, ih]

theorem instrumentBodyFrom_get (l : List AstLiteral) :
    ∀ s i, (instrumentBodyFrom s l).get? i =
      (l.get? i).map fun lit => instrumentedBodyLiteral (s + i) lit := by
  induction l with
  | nil => intro s i; simp [instrumentBodyFrom]
  | cons lit rest ih =>
      intro s i
      cases i with
      | zero => simp [instrumentBodyFrom]
      | succ i =>
          have harith : s + 1 + i = s + (i + 1) := by omega
          simp only [instrumentBodyFrom, List.get?_cons_succ, ih (s + 1) i, harith]

theorem get?_append_left {α : Type} {l1 l2 : List α} {i : Nat} (h : i < l1.length) :
    (l1 ++ l2).get? i = l1.get? i :=
  List.get?_append h

/-- C1: for every non-fact clause under incremental mode, the positive
(insertion) update clause produced by makePositiveUpdateClause is a single
clause that appends the variables iteration_i, prev_count_i, current_count_i
(at-sign-prefixed) to every body atom; its head receives IterationNumber as the
iteration argument if the clause is recursive and the constant 0 otherwise,
followed by the count constants (0, 1); and its body gains the constraints
min over all body current counts greater than 0 and min over all body previous
counts at most 0. -/
theorem C1_positive_update_clause (isRecursive : Bool) (sameSCC : String → Bool)
    (c : AstClause) :
    ∃ r, makePositiveUpdateClause isRecursive sameSCC c = [r] ∧
      r.head.name = c.head.name ∧
      r.head.args = c.head.args ++
        [(if isRecursive then AstArgument.iterationNumber else AstArgument.number 0),
         AstArgument.number 0, AstArgument.number 1] ∧
      (∀ i a, c.body.get? i = some (.atom a) →
        r.body.get? i = some (.atom { a with args := a.args ++
          [.var ("@iteration_" ++ toString i), .var ("@prev_count_" ++ toString i),
           .var ("@current_count_" ++ toString i)] })) ∧
      AstLiteral.binaryConstraint .gt
        (applyFunctorToVars (currentCountVarsFrom 0 c.body) .minF) (.number 0) ∈ r.body ∧
      AstLiteral.binaryConstraint .le
        (applyFunctorToVars (prevCountVarsFrom 0 c.body) .minF) (.number 0) ∈ r.body := by
  unfold makePositiveUpdateClause
  refine ⟨_, rfl, rfl, rfl, ?_, ?_, ?_⟩
  · intro i a h
    obtain ⟨hi, -⟩ := List.get?_eq_some.mp h
    have hlen : i < (instrumentBodyFrom 0 c.body).length := by
      rw [instrumentBodyFrom_length]; exact hi
    by_cases hb : (bodyLevelVarsFrom sameSCC 0 c.body).length > 0 <;>
      simp only [hb, if_true, if_false, List.append_assoc] <;>
      rw [get?_append_left hlen, instrumentBodyFrom_get, h] <;>
      simp [instrumentedBodyLiteral, addUnnamedVariablesLiteral]
  · by_cases hb : (bodyLevelVarsFrom sameSCC 0 c.body).length > 0 <;>
      simp [hb, List.mem_append]
  · by_cases hb : (bodyLevelVarsFrom sameSCC 0 c.body).length > 0 <;>
      simp [hb, List.mem_append]

/-- Example recursive clause for the transitive closure, used as a concrete
input. -/
def exampleRecClause : AstClause :=
  { head := { name := "tc", args := [.var "x", .var "y"] }
    body := [.atom { name := "e", args := [.var "x", .var "z"] },
             .atom { name := "tc", args := [.var "z", .var "y"] }] }

/-- The SCC membership predicate placing only tc in the head's SCC. -/
def exampleSameSCC : String → Bool := fun s => s == "tc"

/-- Witness for C1 at a concrete recursive clause: the second body atom of the
transitive-closure clause receives the three instrumentation variables. -/
theorem C1_witness :
    exampleRecClause.body.get? 1 =
      some (.atom { name := "tc", args := [.var "z", .var "y"] }) ∧
    ∃ r, makePositiveUpdateClause true exampleSameSCC exampleRecClause = [r] ∧
      r.body.get? 1 = some (.atom { name := "tc", args :=
        [.var "z", .var "y", .var "@iteration_1", .var "@prev_count_1",
         .var "@current_count_1"] }) := by
  refine ⟨rfl, ?_⟩
  obtain ⟨r, h1, h2, h3, h4, h5, h6⟩ :=
    C1_positive_update_clause true exampleSameSCC exampleRecClause
  refine ⟨r, h1, ?_⟩
  have h := h4 1 { name := "tc", args := [.var "z", .var "y"] } rfl
  simpa using h

/-- C5: with incremental mode on, after the incremental transformation every
relation of the program has its source attributes extended by, in order, the
iteration, prev_count and current_count attributes (at-sign-prefixed), all of
type number, and the IR relation built for it by translateRelation has arity
equal to the source arity plus 3. -/
theorem C5_incremental_arity (isRecursive : AstClause → Bool) (sameSCC : String → Bool)
    (typeQual : String → String) (p : AstProgram) (i : Nat) :
    ((transformProgram isRecursive sameSCC p).relations.get? i).map (fun r => r.attributes) =
      (p.relations.get? i).map (fun r => r.attributes ++
        [{ attrName := "@iteration", typeName := "number" },
         { attrName := "@prev_count", typeName := "number" },
         { attrName := "@current_count", typeName := "number" }]) ∧
    ((transformProgram isRecursive sameSCC p).relations.get? i).map
        (fun r => (translateRelation typeQual r "").arity) =
      (p.relations.get? i).map (fun r => r.attributes.length + 3) := by
  constructor <;>
  · simp only [transformProgram, List.get?_map]
    cases p.relations.get? i with
    | none => rfl
    | some r =>
        simp [transformRelationClauses, transformRelationAttributes, translateRelation]

/-- C9: in incremental mode, a fact clause is never expanded into update
variants; its head atom is annotated with the constant triple (0, 0, 1) for
(iteration, prev_count, current_count) and the fact is kept otherwise
unchanged, with no clauses appended to the program. -/
theorem C9_fact_not_expanded (isRecursive : Bool) (sameSCC : String → Bool)
    (c : AstClause) (hfact : c.body = []) :
    transformClause isRecursive sameSCC c =
      { keptClauses := [{ c with head := { c.head with args :=
          c.head.args ++ [.number 0, .number 0, .number 1] } }],
        appendedClauses := [] } := by
  simp [transformClause, AstClause.isFact, hfact]

/-- Example fact clause, used as a concrete input. -/
def exampleFact : AstClause :=
  { head := { name := "e", args := [.number 1, .number 2] }, body := [] }

/-- The example fact with its head annotated by the incremental transformer. -/
def exampleFactAnnotated : AstClause :=
  { head :=
      { name := "e", args := [.number 1, .number 2, .number 0, .number 0, .number 1] }
    body := [] }

/-- Witness for C9 at a concrete fact clause. -/
theorem C9_witness :
    exampleFact.body = [] ∧
    transformClause false (fun _ => false) exampleFact =
      { keptClauses := [exampleFactAnnotated], appendedClauses := [] } := by
  refine ⟨rfl, ?_⟩
  have h := C9_fact_not_expanded false (fun _ => false) exampleFact rfl
  simpa [exampleFact, exampleFactAnnotated] using h

/-- The relation targeted by a Load statement, looking through the profiling
timer wrapper. -/
def loadTarget : RamStatement → Option String
  | .load r => some r
  | .logRelationTimer inner _ => loadTarget inner
  | _ => none

/-- C4: for every input relation, the emitted Load statement targets the
diff_plus variant of the relation when incremental mode is on, and targets the
base relation itself when incremental mode is off (under any profiling
setting). -/
theorem C4_input_load_target (incremental profile : Bool) (rel : AstRelation) :
    loadTarget (makeRamLoad incremental profile rel) =
      some (if incremental then diffPlusRelationName rel else rel.relName) := by
  cases incremental <;> cases profile <;> rfl

/-- Discriminator for the top-level profiling timer statement. -/
def RamStatement.isLogTimer : RamStatement → Bool
  | .logTimer _ => true
  | _ => false

/-- C7 counterexample: translating the empty program (zero SCCs) with profiling
enabled yields an empty Sequence as the main statement, not a LogTimer wrapping
an empty sequence: translateProgram returns at the zero-SCC check before the
profiling wrap is reached, leaving the RAM program's construction-time main in
place. -/
theorem C7_counterexample :
    translateProgramMain 0 true [] = RamStatement.sequence [] ∧
    (translateProgramMain 0 true []).isLogTimer = false :=
  ⟨rfl, rfl⟩

/-- C7 (amended): translating the empty program (zero SCCs) yields an IR
program whose top-level main statement is an empty Sequence, regardless of
whether profiling is enabled. -/
theorem C7_empty_program_main (profile : Bool) (strata : List RamStatement) :
    translateProgramMain 0 profile strata = RamStatement.sequence [] := rfl

/-- An incremental rule whose head lacks the (prev_count, current_count)
numeric-constant pair in its last two argument positions: both positions hold
variables. -/
def exampleHeadMissingCounts : AstClause :=
  { head := { name := "p", args := [.var "x", .number 0, .var "pc", .var "cc"] }
    body := [.atom { name := "q", args := [.var "x", .unnamed, .unnamed, .unnamed] }] }

/-- C6: on a rule whose head lacks the count-constant pair, the translator
prints its diagnostic and then faults by dereferencing the null result of the
failed cast; the rule is not skipped and the classification never completes. -/
theorem C6_missing_counts_fault :
    classifyIncrementalRule 4 exampleHeadMissingCounts =
      (true, IncrementalRuleClassification.fault) := rfl

/-! Lemmas for the exit subroutine and the SCC exit condition (C2). -/

/-- Truth of an optional exit-condition accumulator (the absent accumulator is
neutral). -/
def evalOptCond (isEmpty sub : String → Bool) : Option RamCondition → Bool
  | none => true
  | some c => evalRamCondition isEmpty sub c

theorem evalOptCond_addCondition (isEmpty sub : String → Bool)
    (acc : Option RamCondition) (x : RamCondition) :
    evalOptCond isEmpty sub (addCondition acc x) =
      (evalOptCond isEmpty sub acc && evalRamCondition isEmpty sub x) := by
  cases acc <;> simp [addCondition, evalOptCond, evalRamCondition]

theorem evalOptCond_exit_foldl (isEmpty sub : String → Bool) (rels : List AstRelation) :
    ∀ acc : Option RamCondition,
      evalOptCond isEmpty sub (rels.foldl (fun acc rel =>
        addCondition (addCondition acc (.emptinessCheck (newDiffPlusRelationName rel)))
          (.emptinessCheck (newDiffMinusRelationName rel))) acc) =
      (evalOptCond isEmpty sub acc && rels.all fun r =>
        isEmpty (newDiffPlusRelationName r) && isEmpty (newDiffMinusRelationName r)) := by
  induction rels with
  | nil => intro acc; simp
  | cons r rest ih =>
      intro acc
      simp only [List.foldl_cons, List.all_cons, ih, evalOptCond_addCondition,
        evalRamCondition]
      simp [Bool.and_assoc]

theorem addCondition_eval (isEmpty sub : String → Bool) (acc : Option RamCondition)
    (x : RamCondition) :
    ∃ c, addCondition acc x = some c ∧
      evalRamCondition isEmpty sub c =
        (evalOptCond isEmpty sub acc && evalRamCondition isEmpty sub x) := by
  cases acc with
  | none => exact ⟨x, rfl, by simp [evalOptCond]⟩
  | some b => exact ⟨.conjunction b x, rfl, by simp [evalOptCond, evalRamCondition]⟩

theorem exit_scan_returns (iter : Int) (vs : List Int) :
    takeUntilNow ((vs.map fun v => [v]).flatMap fun t =>
      opReturnsAt t [iter]
        (.filter (.constraint .ge (.tupleElement 0 0) (.subroutineArgument 0))
          (.subroutineReturnValue [.number 0] true))) =
    (if vs.any fun v => iter ≤ v then ([[some 0]], true) else ([], false)) := by
  induction vs with
  | nil => simp [takeUntilNow]
  | cons v rest ih =>
      have hstep : opReturnsAt [v] [iter]
          (.filter (.constraint .ge (.tupleElement 0 0) (.subroutineArgument 0))
            (.subroutineReturnValue [.number 0] true)) =
          if iter ≤ v then [([some 0], true)] else [] := by
        by_cases h : iter ≤ v <;>
          simp [opReturnsAt, evalCondAt, evalExprAt, evalConstraintOp, h]
      rw [List.map_cons, List.flatMap_cons, hstep]
      by_cases h : iter ≤ v
      · rw [if_pos h]
        simp [takeUntilNow, List.any_cons, h]
      · rw [if_neg h, List.nil_append, ih, List.any_cons]
        have hd : decide (iter ≤ v) = false := by simp [h]
        rw [hd, Bool.false_or]

/-- C2 (amended): in incremental mode, the generated subroutine scc_i_exit(iter)
scans the singleton max-iteration relation and returns false (0) precisely when
a stored max iteration is greater than or equal to the current iteration
argument (not strictly greater), returning true (1) otherwise; and the SCC
fixpoint loop's exit condition holds exactly when new_diff_plus and
new_diff_minus are empty for every member relation and scc_i_exit returns
true. -/
theorem C2_exit_subroutine_and_loop_condition (contents : List Int) (iter : Int)
    (maxIterRelName : String) (rels : List AstRelation) (indexOfScc : Nat)
    (isEmpty sub : String → Bool) :
    subroutineResult (fun _ => contents.map fun v => [v]) [iter]
        (makeIncrementalExitCondSubroutine maxIterRelName) =
      some (if contents.any fun v => iter ≤ v then 0 else 1) ∧
    ∃ c, makeSccExitCondition true rels indexOfScc = some c ∧
      evalRamCondition isEmpty sub c =
        ((rels.all fun r => isEmpty (newDiffPlusRelationName r) &&
            isEmpty (newDiffMinusRelationName r)) &&
          sub ("scc_" ++ toString indexOfScc ++ "_exit")) := by
  constructor
  · unfold subroutineResult makeIncrementalExitCondSubroutine
    simp only [collectReturns, opReturnsTop]
    rw [exit_scan_returns iter contents]
    by_cases hany : (contents.any fun v => decide (iter ≤ v)) = true
    · simp [hany]
    · simp [hany, collectReturns, opReturnsTop, opReturnsAt, takeUntilNow, evalExprAt]
  · obtain ⟨c, hc, he⟩ := addCondition_eval isEmpty sub
      (rels.foldl (fun acc rel =>
        addCondition (addCondition acc (.emptinessCheck (newDiffPlusRelationName rel)))
          (.emptinessCheck (newDiffMinusRelationName rel))) none)
      (.subroutineCondition ("scc_" ++ toString indexOfScc ++ "_exit") [.iterationNumber])
    refine ⟨c, ?_, ?_⟩
    · rw [← hc]
      unfold makeSccExitCondition
      simp
    · rw [he, evalOptCond_exit_foldl]
      simp [evalOptCond, evalRamCondition]

/-- C2 counterexample: with the stored max iteration 5 and the iteration
argument 5, the emitted subroutine returns 0 (false) although the stored max
does not exceed the argument, refuting the claim that false is returned
precisely when a stored max exceeds the current iteration. -/
theorem C2_counterexample :
    subroutineResult (fun _ => [[5]]) [5]
        (makeIncrementalExitCondSubroutine "scc_0_@max_iter") = some 0 ∧
    ¬ ((5 : Int) > 5) := by
  exact ⟨rfl, by decide⟩

/-! Lemmas for the cleanup subroutine (C3). -/

theorem flatMap_mem_split {α β : Type} (f : α → List β) :
    ∀ {l : List α} {a : α}, a ∈ l → ∃ pre post, l.flatMap f = pre ++ (f a ++ post) := by
  intro l
  induction l with
  | nil => intro a h; cases h
  | cons x rest ih =>
      intro a h
      rcases List.mem_cons.mp h with h1 | h2
      · subst h1
        exact ⟨[], rest.flatMap f, by simp⟩
      · obtain ⟨pre, post, hp⟩ := ih h2
        exact ⟨f x ++ pre, post, by simp [hp]⟩

theorem range_map_get (t : List Int) :
    ∀ k, k ≤ t.length →
      (List.range k).map (fun i => t.get? i) = (t.take k).map some := by
  intro k
  induction k with
  | zero => intro _; simp
  | succ k ih =>
      intro hk
      have hk1 : k ≤ t.length := Nat.le_of_succ_le hk
      have hklt : k < t.length := hk
      rw [List.range_succ, List.map_append, ih hk1, List.take_succ, List.map_append]
      congr 1
      simp [List.getElem?_eq_getElem hklt]

/-- C3: the incremental_cleanup subroutine, for every relation of the program,
first merges the diff_minus and diff_plus variants into the base relation, then
clears the diff_plus, diff_minus, diff_plus_count, diff_minus_count,
diff_plus_applied, diff_minus_applied, and diff_applied variants, and finally
scans the relation projecting every remaining tuple back so that all columns
except the last two are preserved and the last two columns become (-1, -1). -/
theorem C3_cleanup_subroutine (rels : List AstRelation) (rel : AstRelation)
    (t : List Int) (hmem : rel ∈ rels) (hlen : t.length = rel.attributes.length) :
    (∃ pre post, makeIncrementalCleanupSubroutine rels =
      pre ++ (cleanupForRelation rel ++ post)) ∧
    cleanupForRelation rel =
      [ .merge rel.relName (diffMinusRelationName rel),
        .merge rel.relName (diffPlusRelationName rel),
        .clear (diffPlusRelationName rel),
        .clear (diffMinusRelationName rel),
        .clear (diffPlusCountRelationName rel),
        .clear (diffMinusCountRelationName rel),
        .clear (diffPlusAppliedRelationName rel),
        .clear (diffMinusAppliedRelationName rel),
        .clear (diffAppliedRelationName rel),
        .query (.scan rel.relName 0 (.project rel.relName
          (((List.range (rel.attributes.length - 2)).map fun i =>
              RamExpression.tupleElement 0 i) ++ [.number (-1), .number (-1)]))) ] ∧
    (((List.range (rel.attributes.length - 2)).map fun i =>
        RamExpression.tupleElement 0 i) ++
        [RamExpression.number (-1), RamExpression.number (-1)]).map (evalExprAt t []) =
      (t.take (rel.attributes.length - 2)).map some ++ [some (-1), some (-1)] := by
  refine ⟨flatMap_mem_split cleanupForRelation hmem, rfl, ?_⟩
  rw [List.map_append, List.map_map]
  have h := range_map_get t (rel.attributes.length - 2) (by omega)
  simpa [evalExprAt, Function.comp_def] using h

/-- Concrete binary relation with the three incremental annotation columns. -/
def exampleCleanupRel : AstRelation :=
  { relName := "p"
    attributes := [{ attrName := "x", typeName := "number" },
      { attrName := "y", typeName := "number" },
      { attrName := "@iteration", typeName := "number" },
      { attrName := "@prev_count", typeName := "number" },
      { attrName := "@current_count", typeName := "number" }]
    clauses := []
    numberOfHeights := 0 }

/-- Witness for C3 at a concrete relation and tuple: the cleanup projection of
(10, 20, 0, 1, 1) keeps the first three columns and writes (-1, -1) into the
count columns. -/
theorem C3_witness :
    exampleCleanupRel ∈ [exampleCleanupRel] ∧
    ([10, 20, 0, 1, 1] : List Int).length = exampleCleanupRel.attributes.length ∧
    (((List.range (exampleCleanupRel.attributes.length - 2)).map fun i =>
        RamExpression.tupleElement 0 i) ++
        [RamExpression.number (-1), RamExpression.number (-1)]).map
          (evalExprAt [10, 20, 0, 1, 1] []) =
      [some 10, some 20, some 0, some (-1), some (-1)] := by
  refine ⟨by simp, rfl, ?_⟩
  have h := C3_cleanup_subroutine [exampleCleanupRel] exampleCleanupRel
    [10, 20, 0, 1, 1] (by simp) rfl
  exact h.2.2

/-! Lemmas for determinism (C8): the wildcard renaming is idempotent, so the
AST mutation performed by the first run does not change what a second run
translates. -/

/-- Whether an argument contains an unnamed variable. -/
def argHasUnnamed : AstArgument → Bool
  | .unnamed => true
  | .intrinsic _ l r => argHasUnnamed l || argHasUnnamed r
  | _ => false

theorem nameArgument_noUnnamed (a : AstArgument) :
    ∀ n, argHasUnnamed (nameArgument n a).2 = false := by
  induction a with
  | var name => intro n; rfl
  | unnamed => intro n; rfl
  | number v => intro n; rfl
  | iterationNumber => intro n; rfl
  | intrinsic op l r ihl ihr =>
      intro n
      simp [nameArgument, argHasUnnamed, ihl, ihr]

theorem nameArgument_of_noUnnamed (a : AstArgument) :
    ∀ n, argHasUnnamed a = false → nameArgument n a = (n, a) := by
  induction a with
  | var name => intro n _; rfl
  | unnamed => intro n h; simp [argHasUnnamed] at h
  | number v => intro n _; rfl
  | iterationNumber => intro n _; rfl
  | intrinsic op l r ihl ihr =>
      intro n h
      simp only [argHasUnnamed, Bool.or_eq_false_iff] at h
      simp [nameArgument, ihl n h.1, ihr n h.2]

theorem nameArgs_noUnnamed (l : List AstArgument) :
    ∀ n, (nameArgs n l).2.any argHasUnnamed = false := by
  induction l with
  | nil => intro n; rfl
  | cons a rest ih =>
      intro n
      simp [nameArgs, nameArgument_noUnnamed, ih]

theorem nameArgs_of_noUnnamed (l : List AstArgument) :
    ∀ n, l.any argHasUnnamed = false → nameArgs n l = (n, l) := by
  induction l with
  | nil => intro n _; rfl
  | cons a rest ih =>
      intro n h
      simp only [List.any_cons, Bool.or_eq_false_iff] at h
      simp [nameArgs, nameArgument_of_noUnnamed a n h.1, ih n h.2]

/-- Whether a literal is a positive atom containing an unnamed variable among
its arguments (only these are touched by nameUnnamedVariables). -/
def litHasUnnamedAtomArg : AstLiteral → Bool
  | .atom a => a.args.any argHasUnnamed
  | _ => false

theorem nameLiterals_noUnnamed (l : List AstLiteral) :
    ∀ n, (nameLiterals n l).2.any litHasUnnamedAtomArg = false := by
  induction l with
  | nil => intro n; rfl
  | cons lit rest ih =>
      intro n
      cases lit with
      | atom a => simp [nameLiterals, litHasUnnamedAtomArg, nameArgs_noUnnamed, ih]
      | negation a => simp [nameLiterals, litHasUnnamedAtomArg, ih]
      | subsumptionNegation a levels => simp [nameLiterals, litHasUnnamedAtomArg, ih]
      | binaryConstraint op x y => simp [nameLiterals, litHasUnnamedAtomArg, ih]

theorem nameLiterals_of_noUnnamed (l : List AstLiteral) :
    ∀ n, l.any litHasUnnamedAtomArg = false → nameLiterals n l = (n, l) := by
  induction l with
  | nil => intro n _; rfl
  | cons lit rest ih =>
      intro n h
      simp only [List.any_cons, Bool.or_eq_false_iff] at h
      cases lit with
      | atom a =>
          have ha : a.args.any argHasUnnamed = false := h.1
          simp [nameLiterals, nameArgs_of_noUnnamed a.args n ha, ih n h.2]
      | negation a => simp [nameLiterals, ih n h.2]
      | subsumptionNegation a levels => simp [nameLiterals, ih n h.2]
      | binaryConstraint op x y => simp [nameLiterals, ih n h.2]

theorem nameUnnamedVariables_idem (c : AstClause) :
    nameUnnamedVariables (nameUnnamedVariables c) = nameUnnamedVariables c := by
  unfold nameUnnamedVariables
  simp [nameLiterals_of_noUnnamed _ 0 (nameLiterals_noUnnamed c.body 0)]

theorem mutateProgram_idem (cfg : Config) (p : AstProgram) :
    mutateProgramForTranslation cfg (mutateProgramForTranslation cfg p) =
      mutateProgramForTranslation cfg p := by
  unfold mutateProgramForTranslation
  by_cases h : cfg.incremental <;>
    simp [h, List.map_map, Function.comp_def, nameUnnamedVariables_idem]

/-- C8: translation is deterministic: running the driver slice twice on the
same translation unit (the second run seeing the AST as mutated by the first,
since the translator renames unnamed variables in place under incremental mode)
produces identical IR: the output depends only on the AST, the analyses and the
configuration, and the in-place renaming is idempotent. -/
theorem C8_translation_deterministic (cfg : Config) (typeQual : String → String)
    (numSCCs : Nat) (p : AstProgram) :
    (translateUnitModel cfg typeQual numSCCs p).1 =
      (translateUnitModel cfg typeQual numSCCs
        (translateUnitModel cfg typeQual numSCCs p).2).1 := by
  unfold translateUnitModel
  rw [mutateProgram_idem]

/-! Lemmas for the recursive delta versions (C10). -/

theorem bodyAtoms_cons_atom (a : AstAtom) (l : List AstLiteral) :
    bodyAtoms (.atom a :: l) = a :: bodyAtoms l := rfl

theorem bodyAtoms_cons_negation (a : AstAtom) (l : List AstLiteral) :
    bodyAtoms (.negation a :: l) = bodyAtoms l := rfl

theorem bodyAtoms_cons_subsumption (a : AstAtom) (levels : Nat) (l : List AstLiteral) :
    bodyAtoms (.subsumptionNegation a levels :: l) = bodyAtoms l := rfl

theorem bodyAtoms_cons_constraint (op : BinaryConstraintOp) (x y : AstArgument)
    (l : List AstLiteral) :
    bodyAtoms (.binaryConstraint op x y :: l) = bodyAtoms l := rfl

theorem bodyAtoms_mapAtomAt_ne (f : AstAtom → AstAtom) :
    ∀ (l : List AstLiteral) (j k : Nat), k ≠ j →
      (bodyAtoms (mapAtomAt j l f)).get? k = (bodyAtoms l).get? k := by
  intro l
  induction l with
  | nil => intro j k _; cases j <;> rfl
  | cons lit rest ih =>
      intro j k hk
      cases lit with
      | atom a =>
          cases j with
          | zero =>
              cases k with
              | zero => exact absurd rfl hk
              | succ k => simp [mapAtomAt, bodyAtoms_cons_atom]
          | succ j =>
              cases k with
              | zero => simp [mapAtomAt, bodyAtoms_cons_atom]
              | succ k =>
                  have hne : k ≠ j := fun hh => hk (congrArg Nat.succ hh)
                  simp only [mapAtomAt, bodyAtoms_cons_atom, List.get?_cons_succ]
                  exact ih j k hne
      | negation a =>
          simp only [mapAtomAt, bodyAtoms_cons_negation]
          exact ih j k hk
      | subsumptionNegation a levels =>
          simp only [mapAtomAt, bodyAtoms_cons_subsumption]
          exact ih j k hk
      | binaryConstraint op x y =>
          simp only [mapAtomAt, bodyAtoms_cons_constraint]
          exact ih j k hk

theorem bodyAtoms_append_nonatom (l : List AstLiteral) (x : AstLiteral)
    (hx : atomOfLiteral x = none) : bodyAtoms (l ++ [x]) = bodyAtoms l := by
  simp [bodyAtoms, List.filterMap_append, List.filterMap_cons, hx]

theorem bodyAtoms_nameLiterals_names (l : List AstLiteral) :
    ∀ n, (bodyAtoms (nameLiterals n l).2).map (fun a => a.name) =
      (bodyAtoms l).map (fun a => a.name) := by
  induction l with
  | nil => intro n; rfl
  | cons lit rest ih =>
      intro n
      cases lit with
      | atom a => simp [nameLiterals, bodyAtoms_cons_atom, ih]
      | negation a =>
          simp only [nameLiterals, bodyAtoms_cons_negation]
          exact ih n
      | subsumptionNegation a levels =>
          simp only [nameLiterals, bodyAtoms_cons_subsumption]
          exact ih n
      | binaryConstraint op x y =>
          simp only [nameLiterals, bodyAtoms_cons_constraint]
          exact ih n

theorem mem_nameLiterals_of_nonatom (lit : AstLiteral) (hlit : atomOfLiteral lit = none) :
    ∀ (l : List AstLiteral) (n : Nat), lit ∈ l → lit ∈ (nameLiterals n l).2 := by
  intro l
  induction l with
  | nil => intro n h; cases h
  | cons x rest ih =>
      intro n h
      rcases List.mem_cons.mp h with h1 | h2
      · subst h1
        cases lit with
        | atom a => simp [atomOfLiteral] at hlit
        | negation a => exact List.mem_cons_self _ _
        | subsumptionNegation a levels => exact List.mem_cons_self _ _
        | binaryConstraint op x y => exact List.mem_cons_self _ _
      · cases x with
        | atom a => exact List.mem_cons_of_mem _ (ih _ h2)
        | negation a => exact List.mem_cons_of_mem _ (ih _ h2)
        | subsumptionNegation a levels => exact List.mem_cons_of_mem _ (ih _ h2)
        | binaryConstraint op x y => exact List.mem_cons_of_mem _ (ih _ h2)

theorem mem_deltaNegationsFrom (sameSCC : String → Bool) (j : Nat) :
    ∀ (atoms : List AstAtom) (s k : Nat) (a : AstAtom),
      atoms.get? k = some a → j < s + k → sameSCC a.name = true →
      (AstLiteral.negation { a with name := "@delta_" ++ a.name }) ∈
        deltaNegationsFrom sameSCC j s atoms := by
  intro atoms
  induction atoms with
  | nil => intro s k a h _ _; simp at h
  | cons a0 rest ih =>
      intro s k a h hj hscc
      cases k with
      | zero =>
          have ha : a0 = a := by simpa using h
          subst ha
          have hcond : j < s ∧ sameSCC a0.name = true := ⟨by omega, hscc⟩
          simp only [deltaNegationsFrom, if_pos hcond]
          exact List.mem_cons_self _ _
      | succ k =>
          have hmem := ih (s + 1) k a (by simpa using h) (by omega) hscc
          by_cases hcond : j < s ∧ sameSCC a0.name = true
          · simp only [deltaNegationsFrom, if_pos hcond]
            exact List.mem_cons_of_mem _ hmem
          · simp only [deltaNegationsFrom, if_neg hcond]
            exact hmem

theorem deltaVersionTail_parts (sameSCC : String → Bool) (j : Nat) (r3 : AstClause) :
    (deltaVersionTail sameSCC j r3).head = r3.head ∧
    (∀ lit, atomOfLiteral lit = none → lit ∈ r3.body →
      lit ∈ (deltaVersionTail sameSCC j r3).body) ∧
    (∀ k a, (bodyAtoms r3.body).get? k = some a → j < k → sameSCC a.name = true →
      ∃ b, AstLiteral.negation b ∈ (deltaVersionTail sameSCC j r3).body ∧
        b.name = "@delta_" ++ a.name) := by
  refine ⟨rfl, ?_, ?_⟩
  · intro lit hnon hmem
    exact List.mem_append_left _ (mem_nameLiterals_of_nonatom lit hnon r3.body 0 hmem)
  · intro k a hget hjk hscc
    have hnames := bodyAtoms_nameLiterals_names r3.body 0
    have h1 := congrArg (fun l => l.get? k) hnames
    simp only [List.get?_map] at h1
    rw [hget] at h1
    cases hcase : (bodyAtoms (nameLiterals 0 r3.body).2).get? k with
    | none => rw [hcase] at h1; simp at h1
    | some b0 =>
        rw [hcase] at h1
        simp at h1
        refine ⟨{ b0 with name := "@delta_" ++ b0.name }, ?_, by rw [h1]⟩
        apply List.mem_append_right
        exact mem_deltaNegationsFrom sameSCC j _ 0 k b0 hcase (by omega)
          (by rw [h1]; exact hscc)

/-- C10: in non-incremental mode, for every recursive clause whose head has
positive arity, each generated delta version of the clause writes its head into
the new variant of the head relation and carries in its body a negation of the
original head atom (a subsumption negation under provenance), plus, for every
same-SCC body atom occurring after the pivot atom, a negation of that atom's
delta variant. -/
theorem C10_delta_versions (provenance : Bool) (sameSCC : String → Bool)
    (rel : AstRelation) (cl : AstClause) (j : Nat)
    (hhead : 0 < cl.head.args.length) :
    (makeDeltaVersion false provenance sameSCC rel cl j).head.name =
      "@new_" ++ rel.relName ∧
    (∃ lit, lit ∈ (makeDeltaVersion false provenance sameSCC rel cl j).body ∧
      (lit = AstLiteral.negation cl.head ∨
        ∃ m, lit = AstLiteral.subsumptionNegation cl.head m)) ∧
    (∀ k a, (clauseAtoms cl).get? k = some a → j < k → sameSCC a.name = true →
      ∃ b, AstLiteral.negation b ∈ (makeDeltaVersion false provenance sameSCC rel cl j).body ∧
        b.name = "@delta_" ++ a.name) := by
  by_cases hp : provenance
  case pos =>
    have hred : makeDeltaVersion false provenance sameSCC rel cl j =
        deltaVersionTail sameSCC j
          { head := { cl.head with name := newRelationName rel }
            body := mapAtomAt j cl.body (fun a => { a with name := "@delta_" ++ a.name }) ++
              [.subsumptionNegation cl.head (1 + rel.numberOfHeights)] } := by
      simp [makeDeltaVersion, hp]
    have hparts := deltaVersionTail_parts sameSCC j
      { head := { cl.head with name := newRelationName rel }
        body := mapAtomAt j cl.body (fun a => { a with name := "@delta_" ++ a.name }) ++
          [.subsumptionNegation cl.head (1 + rel.numberOfHeights)] }
    rw [hred]
    refine ⟨?_, ?_, ?_⟩
    · rw [hparts.1]; rfl
    · refine ⟨.subsumptionNegation cl.head (1 + rel.numberOfHeights), ?_,
        Or.inr ⟨1 + rel.numberOfHeights, rfl⟩⟩
      exact hparts.2.1 (.subsumptionNegation cl.head (1 + rel.numberOfHeights)) rfl
        (List.mem_append_right _ (List.mem_singleton_self _))
    · intro k a hget hjk hscc
      have hget3 : (bodyAtoms (mapAtomAt j cl.body
          (fun a => { a with name := "@delta_" ++ a.name }) ++
          [.subsumptionNegation cl.head (1 + rel.numberOfHeights)])).get? k = some a := by
        rw [bodyAtoms_append_nonatom _ (.subsumptionNegation cl.head (1 + rel.numberOfHeights)) rfl,
          bodyAtoms_mapAtomAt_ne _ cl.body j k (by omega)]
        exact hget
      exact hparts.2.2 k a hget3 hjk hscc
  case neg =>
    have hpf : provenance = false := by simpa using hp
    have hred : makeDeltaVersion false provenance sameSCC rel cl j =
        deltaVersionTail sameSCC j
          { head := { cl.head with name := newRelationName rel }
            body := mapAtomAt j cl.body (fun a => { a with name := "@delta_" ++ a.name }) ++
              [.negation cl.head] } := by
      simp [makeDeltaVersion, hpf, hhead]
    have hparts := deltaVersionTail_parts sameSCC j
      { head := { cl.head with name := newRelationName rel }
        body := mapAtomAt j cl.body (fun a => { a with name := "@delta_" ++ a.name }) ++
          [.negation cl.head] }
    rw [hred]
    refine ⟨?_, ?_, ?_⟩
    · rw [hparts.1]; rfl
    · refine ⟨.negation cl.head, ?_, Or.inl rfl⟩
      exact hparts.2.1 (.negation cl.head) rfl
        (List.mem_append_right _ (List.mem_singleton_self _))
    · intro k a hget hjk hscc
      have hget3 : (bodyAtoms (mapAtomAt j cl.body
          (fun a => { a with name := "@delta_" ++ a.name }) ++
          [.negation cl.head])).get? k = some a := by
        rw [bodyAtoms_append_nonatom _ (.negation cl.head) rfl,
          bodyAtoms_mapAtomAt_ne _ cl.body j k (by omega)]
        exact hget
      exact hparts.2.2 k a hget3 hjk hscc

/-- A recursive clause with two same-SCC body atoms, used as a concrete
input. -/
def exampleTwoTcClause : AstClause :=
  { head := { name := "tc", args := [.var "x", .var "y"] }
    body := [.atom { name := "tc", args := [.var "x", .var "z"] },
             .atom { name := "tc", args := [.var "z", .var "y"] }] }

/-- The tc relation. -/
def exampleTcRel : AstRelation :=
  { relName := "tc", attributes := [], clauses := [], numberOfHeights := 0 }

/-- Witness for C10 at a concrete recursive clause: pivoting on the first body
atom, the atom after the pivot contributes a negation of its delta variant. -/
theorem C10_witness :
    (0 < exampleTwoTcClause.head.args.length) ∧
    (clauseAtoms exampleTwoTcClause).get? 1 =
      some { name := "tc", args := [.var "z", .var "y"] } ∧
    ((0 : Nat) < 1) ∧ exampleSameSCC "tc" = true ∧
    ∃ b, AstLiteral.negation b ∈
        (makeDeltaVersion false false exampleSameSCC exampleTcRel exampleTwoTcClause 0).body ∧
      b.name = "@delta_" ++ "tc" := by
  refine ⟨by decide, rfl, by decide, by decide, ?_⟩
  obtain ⟨h1, h2, h3⟩ := C10_delta_versions false exampleSameSCC exampleTcRel
    exampleTwoTcClause 0 (by decide)
  obtain ⟨b, hb1, hb2⟩ := h3 1 { name := "tc", args := [.var "z", .var "y"] } rfl
    (by decide) (by decide)
  exact ⟨b, hb1, hb2⟩

end Souffle
